import Mathlib

/-!
Shallow embedding of the core of `src/util.rs` (git-cinnabar utility module):
the fixed-arity exact splitter (`array_init_from_iter_`, `splitn_exact`,
`rsplitn_exact`), the background-flush writer (`BufferedWriter`), and
`SeekExt::stream_len_`.

Rust iterators are embedded as Lean lists of the items they would yield, in
yield order; `iter.next()` corresponds to consuming the head of the list.
Machine bytes (`u8`) are embedded as `Nat`; byte buffers as `List Nat`.
-/

set_option autoImplicit false

namespace Util

variable {α : Type}

/-! ### Fixed-arity exact splitter core (`array_init_from_iter_`)

The Rust function allocates an uninitialized array of `N` slots, iterates over
an index sequence (`0..N` forward, or `(0..N).rev()` when `REVERSED`), writes
`iter.next()?` into each visited slot via a raw pointer, and finally calls
`assume_init`.  The uninitialized array is embedded as a `List (Option α)` of
length `N` initialized to `none` (`none` = uninitialized slot); a raw-pointer
slot write is `List.set i (some v)`; `assume_init` is a total read that
succeeds exactly when every slot has been written. -/

/-- One raw-pointer slot write: `ptr.offset(i).write(v)`. -/
def writeSlot (slots : List (Option α)) (i : Nat) (v : α) : List (Option α) :=
  slots.set i (some v)

/-- The filling loop `for i in indices { ptr.offset(i).write(iter.next()?) }`.
Returns `none` when the iterator is exhausted before the index sequence is
(the `?` early return), otherwise the slot array after all writes, together
with nothing else: the leftover iterator items are simply not consumed. -/
def fillLoop : List Nat → List α → List (Option α) → Option (List (Option α))
  | [], _, slots => some slots
  | _ :: _, [], _ => none
  | i :: is, v :: vs, slots => fillLoop is vs (writeSlot slots i v)

/-- `MaybeUninit::assume_init`: reading the slot array as a fully initialized
array.  In the embedding this is a checked read; the development proves it is
only ever reached with every slot written. -/
def assumeInit : List (Option α) → Option (List α)
  | [] => some []
  | none :: _ => none
  | some v :: rest => (assumeInit rest).map (v :: ·)

/-- The index sequence of the filling loop: `0..N` forward,
`(0..N).rev()` when `REVERSED`. -/
def indicesFor (REVERSED : Bool) (N : Nat) : List Nat :=
  if REVERSED then (List.range N).reverse else List.range N

/-- `array_init_from_iter_::<T, I, N, REVERSED>`. -/
def array_init_from_iter_ (REVERSED : Bool) (N : Nat) (iter : List α) :
    Option (List α) :=
  match fillLoop (indicesFor REVERSED N) iter (List.replicate N none) with
  | none => none
  | some slots => assumeInit slots

/-- `array_init_from_iter` (forward direction). -/
def array_init_from_iter (N : Nat) (iter : List α) : Option (List α) :=
  array_init_from_iter_ false N iter

/-- `array_init_from_rev_iter` (reverse direction). -/
def array_init_from_rev_iter (N : Nat) (iter : List α) : Option (List α) :=
  array_init_from_iter_ true N iter

/-! ### The lazy splitting primitives

`str::splitn(n, c)` and `[T]::splitn(n, pred)` yield at most `n` pieces,
the last one absorbing the remainder; `rsplitn` searches from the end and
yields pieces in end-to-start order.  bstr's `splitn_str` splits on a
substring delimiter.  Strings are embedded as `List Char`. -/

/-- Split a list at the first element satisfying `p`: the pieces before and
after that element, or `none` when no element matches. -/
def splitOnce (p : α → Bool) : List α → Option (List α × List α)
  | [] => none
  | a :: rest =>
    if p a then some ([], rest)
    else (splitOnce p rest).map (fun q => (a :: q.1, q.2))

/-- Rust `splitn(n, p)` over a list: at most `n` pieces, last piece absorbs
the remainder, `n = 0` yields no pieces. -/
def splitnList (p : α → Bool) : Nat → List α → List (List α)
  | 0, _ => []
  | 1, s => [s]
  | n + 2, s =>
    match splitOnce p s with
    | none => [s]
    | some q => q.1 :: splitnList p (n + 1) q.2

/-- Rust `rsplitn(n, p)` over a list: like `splitn` but searching from the
end, pieces yielded in end-to-start order (each piece in original
orientation). -/
def rsplitnList (p : α → Bool) (n : Nat) (s : List α) : List (List α) :=
  (splitnList p n s.reverse).map List.reverse

/-- The iterator `str::splitn(N, c)` (string as `List Char`). -/
def splitnChar (N : Nat) (c : Char) (s : List Char) : List (List Char) :=
  splitnList (fun a => a == c) N s

/-- The iterator `str::rsplitn(N, c)`. -/
def rsplitnChar (N : Nat) (c : Char) (s : List Char) : List (List Char) :=
  rsplitnList (fun a => a == c) N s

/-- `<str as SliceExt<char>>::splitn_exact::<N>`. -/
def splitn_exact (N : Nat) (c : Char) (s : List Char) :
    Option (List (List Char)) :=
  array_init_from_iter N (splitnChar N c s)

/-- `<str as SliceExt<char>>::rsplitn_exact::<N>`. -/
def rsplitn_exact (N : Nat) (c : Char) (s : List Char) :
    Option (List (List Char)) :=
  array_init_from_rev_iter N (rsplitnChar N c s)

/-- First index in `hay` at which `needle` occurs as a contiguous
subsequence (leftmost match, as bstr's substring find). -/
def findSub (needle : List Nat) : List Nat → Option Nat
  | [] => if needle.isPrefixOf ([] : List Nat) then some 0 else none
  | b :: t =>
    if needle.isPrefixOf (b :: t) then some 0
    else (findSub needle t).map (· + 1)

/-- bstr `splitn_str(n, needle)` over bytes: at most `n` pieces split on the
leftmost occurrences of the substring `needle`, last piece absorbing the
remainder. -/
def splitn_str (needle : List Nat) : Nat → List Nat → List (List Nat)
  | 0, _ => []
  | 1, hay => [hay]
  | n + 2, hay =>
    match findSub needle hay with
    | none => [hay]
    | some i =>
      hay.take i :: splitn_str needle (n + 1) (hay.drop (i + needle.length))

/-- `<[u8] as SliceExt<&[u8]>>::splitn_exact::<N>` (multi-byte delimiter). -/
def bytes_splitn_exact (N : Nat) (needle hay : List Nat) :
    Option (List (List Nat)) :=
  array_init_from_iter N (splitn_str needle N hay)

/-- Joining pieces with a single-character delimiter: the reconstruction of
the original string from the pieces `splitn` yields. -/
def joinSep (c : Char) : List (List Char) → List Char
  | [] => []
  | [x] => x
  | x :: y :: rest => x ++ c :: joinSep c (y :: rest)

/-! ### Background-flush writer (`BufferedWriter`)

The Rust type holds a `Sender<Vec<u8>>` and a join handle to a worker that
drains the matching `Receiver` in FIFO order, calls `write_all` on the wrapped
sink for each buffer, and after the channel closes calls `flush` once.  The
channel is embedded as the FIFO list of buffers sent on it; the sink as a
state recording the ordered sequence of operations it has successfully
performed, plus a fault model saying which write call (1-based), if any,
fails.  `Drop` closes the channel and joins the worker; in the embedding it
runs the worker loop on the queued buffers and yields the worker's result,
which `drop` unwraps (an `Except.error` models the unrecoverable error). -/

/-- A byte buffer (`Vec<u8>`). -/
abbrev Buf := List Nat

/-- An I/O error from the sink: the index of the failing write call, or a
failing flush. -/
inductive IOErr : Type
  | writeErr (n : Nat)
  | flushErr
deriving DecidableEq, Repr

/-- An operation successfully performed on the destination sink. -/
inductive SinkEvent : Type
  | write (buf : Buf)
  | flush
deriving DecidableEq, Repr

/-- The destination sink: a fault model (`failAt` = 1-based index of the
write call that fails, `flushFails`), the ordered trace of successful
operations, and the number of write calls made so far. -/
structure Sink : Type where
  failAt : Option Nat
  flushFails : Bool
  events : List SinkEvent
  writeCalls : Nat
deriving DecidableEq, Repr

/-- A fresh sink with the given fault model. -/
def newSink (failAt : Option Nat) (flushFails : Bool) : Sink :=
  { failAt := failAt, flushFails := flushFails, events := [], writeCalls := 0 }

/-- `w.write_all(&buf)`: one write call on the sink; fails iff this is the
`failAt`-th write call. -/
def Sink.write_all (s : Sink) (buf : Buf) : Sink × Option IOErr :=
  let n := s.writeCalls + 1
  if s.failAt = some n then
    ({ s with writeCalls := n }, some (IOErr.writeErr n))
  else
    ({ s with writeCalls := n, events := s.events ++ [SinkEvent.write buf] },
      none)

/-- `w.flush()` on the sink. -/
def Sink.flush (s : Sink) : Sink × Option IOErr :=
  if s.flushFails then (s, some IOErr.flushErr)
  else ({ s with events := s.events ++ [SinkEvent.flush] }, none)

/-- The worker closure: `for buf in receiver.iter() { w.write_all(&buf)?; }
w.flush()?; Ok(())`, run on the FIFO sequence of buffers the channel
delivers.  Returns the final sink state and the worker's `io::Result<()>`. -/
def workerRun : Sink → List Buf → Sink × Except IOErr Unit
  | s, [] =>
    let r := s.flush
    (r.1, match r.2 with
      | some e => Except.error e
      | none => Except.ok ())
  | s, b :: rest =>
    let r := s.write_all b
    match r.2 with
    | some e => (r.1, Except.error e)
    | none => workerRun r.1 rest

/-- The caller-visible handle: whether the send endpoint is still present
(`sender: Option<Sender<_>>`), and the FIFO contents of the handoff
channel. -/
structure BufferedWriter : Type where
  senderOpen : Bool
  channel : List Buf
deriving DecidableEq, Repr

/-- A freshly constructed `BufferedWriter` (channel open and empty). -/
def newWriter : BufferedWriter :=
  { senderOpen := true, channel := [] }

/-- `impl Write for BufferedWriter`, `write`:
`self.sender.as_ref().map(|s| s.send(buf.to_owned())); Ok(buf.len())`.
An owned copy of the buffer is enqueued when the sender is present; the
return value is `Ok(buf.len())` in every case. -/
def BufferedWriter.write (w : BufferedWriter) (buf : Buf) :
    BufferedWriter × Nat :=
  (if w.senderOpen then { w with channel := w.channel ++ [buf] } else w,
    buf.length)

/-- `impl Drop for BufferedWriter`: dropping the sender closes the channel,
so the worker's `receiver.iter()` ends after draining the queued buffers;
`join().unwrap().unwrap()` then surfaces the worker's result.  The embedding
runs the worker loop over the queued buffers against the given sink. -/
def BufferedWriter.drop (w : BufferedWriter) (sink : Sink) :
    Sink × Except IOErr Unit :=
  workerRun sink w.channel

/-- A whole producer-side session: perform the `write` calls for `bufs` in
order, returning the final handle and the list of return values. -/
def runWrites : BufferedWriter → List Buf → BufferedWriter × List Nat
  | w, [] => (w, [])
  | w, b :: rest =>
    let r := w.write b
    let r2 := runWrites r.1 rest
    (r2.1, r.2 :: r2.2)

/-- Write all of `bufs` on a fresh writer, then drop it against `sink`. -/
def runSession (bufs : List Buf) (sink : Sink) : Sink × Except IOErr Unit :=
  BufferedWriter.drop (runWrites newWriter bufs).1 sink

/-- The values the `write` calls of a session return. -/
def acceptReturns (bufs : List Buf) : List Nat :=
  (runWrites newWriter bufs).2

/-- The buffers a sink trace records as written, in order. -/
def writtenBufs (es : List SinkEvent) : List Buf :=
  es.filterMap (fun e => match e with
    | SinkEvent.write b => some b
    | SinkEvent.flush => none)

/-- How many flushes a sink trace records. -/
def flushCount (es : List SinkEvent) : Nat :=
  (es.filter (fun e => match e with
    | SinkEvent.flush => true
    | SinkEvent.write _ => false)).length

/-! ### `SeekExt::stream_len_`

A seekable stream is embedded as its total length and current position;
`Seek::seek` on the three `SeekFrom` variants moves the position (positions
past the end are allowed; a negative target position is an error, `none`). -/

/-- `std::io::SeekFrom`. -/
inductive SeekFrom : Type
  | start (n : Nat)
  | fromEnd (d : Int)
  | current (d : Int)

/-- A seekable stream: total length and current position. -/
structure SeekStream : Type where
  len : Nat
  pos : Nat
deriving DecidableEq, Repr

/-- `Seek::seek`: returns the updated stream and the new position from the
start; seeking to a negative position is an error. -/
def SeekStream.seek (s : SeekStream) : SeekFrom → Option (SeekStream × Nat)
  | SeekFrom.start n => some ({ s with pos := n }, n)
  | SeekFrom.fromEnd d =>
    let p : Int := (s.len : Int) + d
    if p < 0 then none else some ({ s with pos := p.toNat }, p.toNat)
  | SeekFrom.current d =>
    let p : Int := (s.pos : Int) + d
    if p < 0 then none else some ({ s with pos := p.toNat }, p.toNat)

/-- `SeekExt::stream_len_`: save the current position, seek to the end to
learn the length, seek back to the saved position, return the length. -/
def stream_len_ (s : SeekStream) : Option (SeekStream × Nat) :=
  match s.seek (SeekFrom.current 0) with
  | none => none
  | some r1 =>
    match r1.1.seek (SeekFrom.fromEnd 0) with
    | none => none
    | some r2 =>
      match r2.1.seek (SeekFrom.start r1.2) with
      | none => none
      | some r3 => some (r3.1, r2.2)

/-! ### Lemmas about the splitter core -/

theorem indicesFor_length (rev : Bool) (N : Nat) :
    (indicesFor rev N).length = N := by
  cases rev <;> simp [indicesFor]

theorem fillLoop_none : ∀ (indices : List Nat) (iter : List α)
    (slots : List (Option α)), iter.length < indices.length →
    fillLoop indices iter slots = none
  | [], _, _, h => absurd h (by simp)
  | _ :: _, [], _, _ => rfl
  | _ :: is, _ :: vs, slots, h =>
    fillLoop_none is vs _ (by simpa using Nat.lt_of_succ_lt_succ (by simpa using h))

theorem fillLoop_append_inert : ∀ (indices : List Nat) (iter : List α)
    (slots extra : List (Option α)), (∀ i ∈ indices, i < slots.length) →
    fillLoop indices iter (slots ++ extra)
      = (fillLoop indices iter slots).map (· ++ extra)
  | [], _, _, _, _ => rfl
  | _ :: _, [], _, _, _ => rfl
  | i :: is, v :: vs, slots, extra, h => by
    have hi : i < slots.length := h i (by simp)
    have hrec := fillLoop_append_inert is vs (slots.set i (some v)) extra
      (fun j hj => by rw [List.length_set]; exact h j (by simp [hj]))
    simp only [fillLoop, writeSlot] at hrec ⊢
    rw [List.set_append_left _ _ hi, hrec]

theorem fillLoop_shift : ∀ (indices : List Nat) (iter : List α) (x : Option α)
    (slots : List (Option α)),
    fillLoop (indices.map (· + 1)) iter (x :: slots)
      = (fillLoop indices iter slots).map (x :: ·)
  | [], _, _, _ => rfl
  | _ :: _, [], _, _ => rfl
  | i :: is, v :: vs, x, slots => by
    have hrec := fillLoop_shift is vs x (slots.set i (some v))
    simp only [List.map_cons, fillLoop, writeSlot, List.set_cons_succ] at hrec ⊢
    exact hrec

theorem fillLoop_forward : ∀ (N : Nat) (iter : List α), N ≤ iter.length →
    fillLoop (List.range N) iter (List.replicate N none)
      = some ((iter.take N).map some)
  | 0, _, _ => rfl
  | N + 1, [], h => absurd h (by simp)
  | N + 1, v :: vs, h => by
    have hrec := fillLoop_forward N vs (Nat.le_of_succ_le_succ h)
    rw [List.range_succ_eq_map]
    show fillLoop ((List.range N).map Nat.succ) vs
        (writeSlot (none :: List.replicate N none) 0 v) = _
    have hsucc : (List.range N).map Nat.succ = (List.range N).map (· + 1) := rfl
    rw [hsucc, writeSlot, List.set_cons_zero, fillLoop_shift, hrec]
    simp

theorem fillLoop_reversed : ∀ (N : Nat) (iter : List α), N ≤ iter.length →
    fillLoop ((List.range N).reverse) iter (List.replicate N none)
      = some (((iter.take N).reverse).map some)
  | 0, _, _ => rfl
  | N + 1, [], h => absurd h (by simp)
  | N + 1, v :: vs, h => by
    have hrec := fillLoop_reversed N vs (Nat.le_of_succ_le_succ h)
    rw [List.range_succ, List.reverse_append, List.replicate_succ']
    show fillLoop (N :: (List.range N).reverse) (v :: vs)
        (List.replicate N none ++ [none]) = _
    have hset : writeSlot (List.replicate N none ++ [none]) N v
        = List.replicate N none ++ [some v] := by
      rw [writeSlot, List.set_append_right]
      · simp
      · simp
    have hinert := fillLoop_append_inert ((List.range N).reverse) vs
      (List.replicate N none) [some v]
      (fun j hj => by simpa using List.mem_range.mp (by simpa using hj))
    simp only [fillLoop, hset, hinert, hrec]
    simp

theorem assumeInit_map_some : ∀ (l : List α), assumeInit (l.map some) = some l
  | [] => rfl
  | v :: rest => by simp [assumeInit, assumeInit_map_some rest]

theorem array_init_forward_eval (N : Nat) (iter : List α) (h : N ≤ iter.length) :
    array_init_from_iter_ false N iter = some (iter.take N) := by
  rw [array_init_from_iter_, indicesFor]
  simp only [Bool.false_eq_true, if_false]
  rw [fillLoop_forward N iter h]
  exact assumeInit_map_some _

theorem array_init_reversed_eval (N : Nat) (iter : List α) (h : N ≤ iter.length) :
    array_init_from_iter_ true N iter = some ((iter.take N).reverse) := by
  rw [array_init_from_iter_, indicesFor]
  simp only [if_true]
  rw [fillLoop_reversed N iter h]
  exact assumeInit_map_some _

theorem array_init_absent (rev : Bool) (N : Nat) (iter : List α)
    (h : iter.length < N) : array_init_from_iter_ rev N iter = none := by
  rw [array_init_from_iter_,
    fillLoop_none _ _ _ (by rw [indicesFor_length]; exact h)]

/-! ### Lemmas about the lazy splitting primitives -/

theorem splitnList_length_le (p : α → Bool) : ∀ (n : Nat) (s : List α),
    (splitnList p n s).length ≤ n
  | 0, _ => Nat.le_refl 0
  | 1, s => by simp [splitnList]
  | n + 2, s => by
    rw [splitnList]
    cases h : splitOnce p s with
    | none => simp
    | some q => simpa using splitnList_length_le p (n + 1) q.2

theorem splitnList_ne_nil (p : α → Bool) : ∀ (n : Nat) (s : List α),
    1 ≤ n → splitnList p n s ≠ []
  | 0, _, h => absurd h (by omega)
  | 1, s, _ => by simp [splitnList]
  | n + 2, s, _ => by
    rw [splitnList]
    cases h : splitOnce p s <;> simp

theorem splitOnce_eq (c : Char) : ∀ (s : List Char) (q : List Char × List Char),
    splitOnce (fun a => a == c) s = some q → s = q.1 ++ c :: q.2
  | [], q, h => by simp [splitOnce] at h
  | a :: rest, q, h => by
    rw [splitOnce] at h
    by_cases hac : a = c
    · rw [if_pos (by simp [hac])] at h
      cases h
      simpa using hac
    · rw [if_neg (by simp [hac])] at h
      rcases Option.map_eq_some'.mp h with ⟨q', hq', rfl⟩
      simpa using splitOnce_eq c rest q' hq'

theorem joinSep_splitnList (c : Char) : ∀ (n : Nat) (s : List Char), 1 ≤ n →
    joinSep c (splitnList (fun a => a == c) n s) = s
  | 0, _, h => absurd h (by omega)
  | 1, _, _ => rfl
  | n + 2, s, _ => by
    rw [splitnList]
    cases h : splitOnce (fun a => a == c) s with
    | none => rfl
    | some q =>
      have hs := splitOnce_eq c s q h
      have hrec := joinSep_splitnList c (n + 1) q.2 (by omega)
      have hne := splitnList_ne_nil (fun a => a == c) (n + 1) q.2 (by omega)
      cases hrest : splitnList (fun a => a == c) (n + 1) q.2 with
      | nil => exact absurd hrest hne
      | cons y ys =>
        rw [hrest] at hrec
        show joinSep c (q.1 :: splitnList (fun a => a == c) (n + 1) q.2) = s
        rw [hrest]
        show q.1 ++ c :: joinSep c (y :: ys) = s
        rw [hrec, hs]

/-! ### Lemmas about the background-flush writer -/

theorem runWrites_spec : ∀ (bufs : List Buf) (w : BufferedWriter),
    w.senderOpen = true →
    (runWrites w bufs).1 = { senderOpen := true, channel := w.channel ++ bufs }
    ∧ (runWrites w bufs).2 = bufs.map List.length
  | [], w, h => by cases w; simp_all [runWrites]
  | b :: rest, w, h => by
    have step : w.write b
        = ({ senderOpen := true, channel := w.channel ++ [b] }, b.length) := by
      cases w
      simp_all [BufferedWriter.write]
    have ih := runWrites_spec rest { senderOpen := true, channel := w.channel ++ [b] } rfl
    simp [runWrites, step, ih.1, ih.2]

theorem workerRun_ok : ∀ (bufs : List Buf) (s : Sink),
    s.failAt = none → s.flushFails = false →
    workerRun s bufs
      = ({ s with
            events := s.events ++ bufs.map SinkEvent.write ++ [SinkEvent.flush],
            writeCalls := s.writeCalls + bufs.length }, Except.ok ())
  | [], s, _, h2 => by
    simp [workerRun, Sink.flush, h2]
  | b :: rest, s, h1, h2 => by
    have hw : s.write_all b
        = ({ s with
              writeCalls := s.writeCalls + 1,
              events := s.events ++ [SinkEvent.write b] }, none) := by
      simp [Sink.write_all, h1]
    have ih := workerRun_ok rest
      { s with writeCalls := s.writeCalls + 1, events := s.events ++ [SinkEvent.write b] }
      h1 h2
    simp only [workerRun, hw, ih]
    simp
    omega

theorem workerRun_fail : ∀ (bufs : List Buf) (s : Sink) (m : Nat),
    s.failAt = some m → s.writeCalls < m → m ≤ s.writeCalls + bufs.length →
    workerRun s bufs
      = ({ s with
            events := s.events
              ++ (bufs.take (m - s.writeCalls - 1)).map SinkEvent.write,
            writeCalls := m }, Except.error (IOErr.writeErr m))
  | [], _, _, _, h2, h3 => absurd h3 (by simp; omega)
  | b :: rest, s, m, h1, h2, h3 => by
    by_cases hm : m = s.writeCalls + 1
    · have hw : s.write_all b = ({ s with writeCalls := s.writeCalls + 1 },
          some (IOErr.writeErr (s.writeCalls + 1))) := by
        simp [Sink.write_all, h1, hm]
      simp only [workerRun, hw]
      have hz : m - s.writeCalls - 1 = 0 := by omega
      simp [hz, hm]
    · have hlt : s.writeCalls + 1 < m := by omega
      have hne : ¬s.failAt = some (s.writeCalls + 1) := by
        rw [h1]
        simp
        omega
      have hw : s.write_all b
          = ({ s with
                writeCalls := s.writeCalls + 1,
                events := s.events ++ [SinkEvent.write b] }, none) := by
        simp [Sink.write_all, hne]
      have ih := workerRun_fail rest
        { s with writeCalls := s.writeCalls + 1, events := s.events ++ [SinkEvent.write b] }
        m h1 (by simpa using hlt) (by simp at h3 ⊢; omega)
      simp only [workerRun, hw, ih]
      have hk : m - s.writeCalls - 1 = (m - (s.writeCalls + 1) - 1) + 1 := by omega
      rw [hk]
      simp [List.append_assoc]

theorem writtenBufs_trace : ∀ (l : List Buf),
    writtenBufs (l.map SinkEvent.write ++ [SinkEvent.flush]) = l
  | [] => rfl
  | b :: rest => congrArg (b :: ·) (writtenBufs_trace rest)

theorem writtenBufs_writes : ∀ (l : List Buf),
    writtenBufs (l.map SinkEvent.write) = l
  | [] => rfl
  | b :: rest => congrArg (b :: ·) (writtenBufs_writes rest)

theorem flushCount_trace : ∀ (l : List Buf),
    flushCount (l.map SinkEvent.write ++ [SinkEvent.flush]) = 1
  | [] => rfl
  | _ :: rest => flushCount_trace rest

/-- The sink state and worker result a full session (writes then drop)
produces, for a sink whose fault model never fires. -/
theorem runSession_ok (bufs : List Buf) :
    runSession bufs (newSink none false)
      = ({ failAt := none, flushFails := false,
           events := bufs.map SinkEvent.write ++ [SinkEvent.flush],
           writeCalls := bufs.length }, Except.ok ()) := by
  have hrw := (runWrites_spec bufs newWriter rfl).1
  rw [runSession, BufferedWriter.drop, hrw]
  have := workerRun_ok bufs (newSink none false) rfl rfl
  simpa [newSink, newWriter] using this

/-- The sink state and worker result a full session produces when the sink
fails on its `m`-th write call. -/
theorem runSession_fail (bufs : List Buf) (m : Nat) (h1 : 1 ≤ m)
    (h2 : m ≤ bufs.length) :
    runSession bufs (newSink (some m) false)
      = ({ failAt := some m, flushFails := false,
           events := (bufs.take (m - 1)).map SinkEvent.write,
           writeCalls := m }, Except.error (IOErr.writeErr m)) := by
  have hrw := (runWrites_spec bufs newWriter rfl).1
  rw [runSession, BufferedWriter.drop, hrw]
  have := workerRun_fail bufs (newSink (some m) false) m rfl (by simpa [newSink] using h1)
    (by simpa [newSink] using h2)
  simpa [newSink, newWriter] using this

/-! ### Claim theorems -/

/-- C1: for every sequence of accept (`write`) calls with buffers `b1..bk` on
the background-flush writer followed by dispose (`drop`), the destination sink
ends up having received exactly the buffers `b1..bk` in the order the calls
were made — no buffer reordered, duplicated, or dropped — hence exactly the
concatenated byte stream `b1‖…‖bk`. -/
theorem bufferedWriter_ordering (bufs : List Buf) :
    writtenBufs (runSession bufs (newSink none false)).1.events = bufs
    ∧ (writtenBufs (runSession bufs (newSink none false)).1.events).flatten
        = bufs.flatten
    ∧ (runSession bufs (newSink none false)).2 = Except.ok () := by
  rw [runSession_ok bufs]
  exact ⟨writtenBufs_trace bufs, congrArg List.flatten (writtenBufs_trace bufs), rfl⟩

/-- C2: if the destination sink fails on the `m`-th write, no buffer from the
`m`-th onward is written to the sink, and dispose (`drop`) reports exactly
that first I/O failure as an unrecoverable error, while every `accept` call
still returned the full buffer length (the failure is never surfaced
synchronously to `accept`). -/
theorem bufferedWriter_failure_propagation (bufs : List Buf) (m : Nat)
    (h1 : 1 ≤ m) (h2 : m ≤ bufs.length) :
    writtenBufs (runSession bufs (newSink (some m) false)).1.events
      = bufs.take (m - 1)
    ∧ (runSession bufs (newSink (some m) false)).2
        = Except.error (IOErr.writeErr m)
    ∧ acceptReturns bufs = bufs.map List.length := by
  rw [runSession_fail bufs m h1 h2]
  exact ⟨writtenBufs_writes _, rfl, (runWrites_spec bufs newWriter rfl).2⟩

/-- Witness for C2 at `bufs = [[1], [2], [3]]`, `m = 2`: only the first
buffer reaches the sink and the drop reports the failing second write. -/
theorem bufferedWriter_failure_propagation_witness :
    ((1 : Nat) ≤ 2 ∧ 2 ≤ ([[1], [2], [3]] : List Buf).length)
    ∧ writtenBufs (runSession [[1], [2], [3]] (newSink (some 2) false)).1.events
        = [[1]]
    ∧ (runSession [[1], [2], [3]] (newSink (some 2) false)).2
        = Except.error (IOErr.writeErr 2) := by
  have h := bufferedWriter_failure_propagation [[1], [2], [3]] 2 (by decide) (by decide)
  exact ⟨⟨by decide, by decide⟩, h.1.trans (by decide), h.2.1⟩

/-- C3: dispose (`drop`) only returns with a sink trace in which every
previously accepted buffer has been written and the sink was then flushed:
the trace is exactly the writes of `bufs` in order followed by one flush, and
the flush happens exactly once, after the last queued buffer. -/
theorem bufferedWriter_completion (bufs : List Buf) :
    (runSession bufs (newSink none false)).1.events
      = bufs.map SinkEvent.write ++ [SinkEvent.flush]
    ∧ flushCount (runSession bufs (newSink none false)).1.events = 1 := by
  rw [runSession_ok bufs]
  exact ⟨rfl, flushCount_trace bufs⟩

/-- C4 counterexample: with the handoff channel already closed
(`sender = None`), `write` on the one-byte buffer `[7]` leaves the state
unchanged but returns 1 — the full input length — not the 0 the claim
predicts. -/
theorem bufferedWriter_write_closed_counterexample :
    (BufferedWriter.write { senderOpen := false, channel := [] } [7]).2 = 1
    ∧ (BufferedWriter.write { senderOpen := false, channel := [] } [7]).1
        = { senderOpen := false, channel := [] }
    ∧ (1 : Nat) ≠ 0 :=
  ⟨rfl, rfl, by omega⟩

/-- C4 (amended): every `write` call returns the full length of its input;
while the channel is open it enqueues an owned copy of the bytes, and once
the channel is closed it is a no-op on the state — but it still returns the
full input length, not zero. -/
theorem bufferedWriter_write_contract (w : BufferedWriter) (buf : Buf) :
    (w.write buf).2 = buf.length
    ∧ (w.senderOpen = true → (w.write buf).1.channel = w.channel ++ [buf])
    ∧ (w.senderOpen = false → (w.write buf).1 = w) := by
  cases w with
  | mk so ch => cases so <;> simp [BufferedWriter.write]

/-- Witness for C4 (amended) on an open channel and a two-byte buffer. -/
theorem bufferedWriter_write_contract_witness :
    (BufferedWriter.write { senderOpen := true, channel := [] } [5, 6]).2 = 2
    ∧ (BufferedWriter.write { senderOpen := true, channel := [] } [5, 6]).1.channel
        = [[5, 6]] := by
  have h := bufferedWriter_write_contract { senderOpen := true, channel := [] } [5, 6]
  exact ⟨h.1, (h.2.1 rfl).trans rfl⟩

/-- C5: whenever `rsplitn_exact` succeeds, the returned array is the reverse
of the (end-to-start) `rsplitn` piece sequence — the descending slot fill
puts the pieces back in original left-to-right order, slot 0 holding the
leftmost piece.  The witness instantiates this at reverse-splitting
`"a,b,c"` on `,` with `N = 2`, yielding `["a,b", "c"]`. -/
theorem rsplitn_exact_left_to_right (N : Nat) (c : Char) (s : List Char)
    (arr : List (List Char)) (h : rsplitn_exact N c s = some arr) :
    arr = (rsplitnChar N c s).reverse := by
  have hle : (rsplitnChar N c s).length ≤ N := by
    simpa [rsplitnChar, rsplitnList] using
      splitnList_length_le (fun a => a == c) N s.reverse
  by_cases hlen : N ≤ (rsplitnChar N c s).length
  · have he := array_init_reversed_eval N (rsplitnChar N c s) hlen
    rw [List.take_of_length_le hle] at he
    rw [rsplitn_exact, array_init_from_rev_iter, he] at h
    exact (Option.some_inj.mp h).symm
  · rw [rsplitn_exact, array_init_from_rev_iter,
      array_init_absent true N _ (by omega)] at h
    exact absurd h (by simp)

/-- Witness for C5: the spec's concrete reverse-split example. -/
theorem rsplitn_exact_left_to_right_witness :
    rsplitn_exact 2 ',' "a,b,c".toList = some ["a,b".toList, "c".toList]
    ∧ ["a,b".toList, "c".toList] = (rsplitnChar 2 ',' "a,b,c".toList).reverse :=
  ⟨by decide, rsplitn_exact_left_to_right 2 ',' "a,b,c".toList _ (by decide)⟩

/-- C6: the index sequence the filling loop visits covers each of the `N`
slots exactly once (it is duplicate-free and its members are exactly the
slots `j < N`); if the iterator is exhausted after fewer than `N` items the
loop stops with the absence value, never reaching the array read; and when
the iterator yields enough items the loop completes with every slot written,
so the subsequent `assume_init` read only ever sees a fully written array. -/
theorem array_init_slot_discipline {α : Type} (rev : Bool) (N : Nat)
    (iter : List α) :
    (indicesFor rev N).Nodup
    ∧ (∀ j, j ∈ indicesFor rev N ↔ j < N)
    ∧ (iter.length < N →
        fillLoop (indicesFor rev N) iter (List.replicate N none) = none
        ∧ array_init_from_iter_ rev N iter = none)
    ∧ (N ≤ iter.length →
        ∃ slots,
          fillLoop (indicesFor rev N) iter (List.replicate N none) = some slots
          ∧ ∀ o ∈ slots, o.isSome) := by
  refine ⟨?_, ?_, ?_, ?_⟩
  · cases rev <;> simp [indicesFor, List.nodup_range]
  · intro j
    cases rev <;> simp [indicesFor]
  · intro h
    exact ⟨fillLoop_none _ _ _ (by rw [indicesFor_length]; exact h),
      array_init_absent rev N iter h⟩
  · intro h
    cases rev
    · exact ⟨_, fillLoop_forward N iter h,
        fun o ho => by rcases List.mem_map.mp ho with ⟨a, _, rfl⟩; rfl⟩
    · exact ⟨_, fillLoop_reversed N iter h,
        fun o ho => by rcases List.mem_map.mp ho with ⟨a, _, rfl⟩; rfl⟩

/-- Witness for C6: early exhaustion (empty iterator, one slot) aborts with
the absence value; a sufficient iterator fills every slot. -/
theorem array_init_slot_discipline_witness :
    fillLoop (indicesFor false 1) ([] : List Nat) (List.replicate 1 none) = none
    ∧ ∃ slots,
        fillLoop (indicesFor false 1) [(37 : Nat)] (List.replicate 1 none)
          = some slots
        ∧ ∀ o ∈ slots, o.isSome :=
  ⟨((array_init_slot_discipline false 1 ([] : List Nat)).2.2.1 (by decide)).1,
    (array_init_slot_discipline false 1 [(37 : Nat)]).2.2.2 (by decide)⟩

/-- C7: forward `splitn_exact` splits into at most `N` pieces with the final
piece absorbing the remainder (joining the pieces back with the delimiter
reconstructs the input), and on the spec's concrete examples:
`"a,b,c"` on `,` with `N = 3` gives `["a","b","c"]`, with `N = 2` gives
`["a","b,c"]`, and bytes `a::b::c` on delimiter `::` with `N = 3` give
`[a, b, c]`. -/
theorem splitn_exact_forward (n : Nat) (c : Char) (s : List Char)
    (h : 1 ≤ n) :
    joinSep c (splitnChar n c s) = s
    ∧ (splitnChar n c s).length ≤ n
    ∧ splitn_exact 3 ',' "a,b,c".toList
        = some ["a".toList, "b".toList, "c".toList]
    ∧ splitn_exact 2 ',' "a,b,c".toList = some ["a".toList, "b,c".toList]
    ∧ bytes_splitn_exact 3 [58, 58] [97, 58, 58, 98, 58, 58, 99]
        = some [[97], [98], [99]] :=
  ⟨joinSep_splitnList c n s h, splitnList_length_le (fun a => a == c) n s,
    by decide, by decide, by decide⟩

/-- Witness for C7 at `n = 3`, delimiter `,`, input `"a,b,c"`. -/
theorem splitn_exact_forward_witness :
    (1 : Nat) ≤ 3
    ∧ joinSep ',' (splitnChar 3 ',' "a,b,c".toList) = "a,b,c".toList :=
  ⟨by decide, (splitn_exact_forward 3 ',' "a,b,c".toList (by decide)).1⟩

/-- C8: whenever the splitting iterator yields fewer than `N` pieces, both
`splitn_exact` and `rsplitn_exact` return the absence value `none` (and
nothing else); in particular splitting `"a"` on `,` with `N = 2`, forward or
reverse, yields `none`. -/
theorem splitn_exact_absence (N : Nat) (c : Char) (s : List Char)
    (h1 : (splitnChar N c s).length < N)
    (h2 : (rsplitnChar N c s).length < N) :
    splitn_exact N c s = none
    ∧ rsplitn_exact N c s = none
    ∧ splitn_exact 2 ',' "a".toList = none
    ∧ rsplitn_exact 2 ',' "a".toList = none :=
  ⟨array_init_absent false N _ h1, array_init_absent true N _ h2,
    by decide, by decide⟩

/-- Witness for C8 at the spec's concrete absence example. -/
theorem splitn_exact_absence_witness :
    ((splitnChar 2 ',' "a".toList).length < 2
      ∧ (rsplitnChar 2 ',' "a".toList).length < 2)
    ∧ splitn_exact 2 ',' "a".toList = none
    ∧ rsplitn_exact 2 ',' "a".toList = none :=
  ⟨⟨by decide, by decide⟩,
    (splitn_exact_absence 2 ',' "a".toList (by decide) (by decide)).1,
    (splitn_exact_absence 2 ',' "a".toList (by decide) (by decide)).2.1⟩

/-- C9: with `N = 0`, the splitter returns `some []` immediately on every
input — for the raw array-filling core on an arbitrary iterator, for both
string front ends, and for the byte front end — and the filling loop with an
empty index sequence returns without consuming the iterator at all. -/
theorem splitn_exact_zero_arity {α : Type} (rev : Bool) (iter : List α)
    (c : Char) (s : List Char) (needle hay : List Nat)
    (slots : List (Option α)) :
    array_init_from_iter_ rev 0 iter = some []
    ∧ splitn_exact 0 c s = some []
    ∧ rsplitn_exact 0 c s = some []
    ∧ bytes_splitn_exact 0 needle hay = some []
    ∧ fillLoop [] iter slots = some slots := by
  refine ⟨?_, rfl, rfl, rfl, rfl⟩
  cases rev <;> rfl

/-- C10: `stream_len_` returns the stream's total length (the offset of its
end) and restores the stream to its exact pre-call state: the current
position is saved, the end is sought, and the saved position is sought
again. -/
theorem stream_len_preserves_pos (s : SeekStream) :
    stream_len_ s = some (s, s.len) := by
  cases s with
  | mk len pos =>
    have h1 : ¬((pos : Int) < 0) := by omega
    have h2 : ¬((len : Int) < 0) := by omega
    simp [stream_len_, SeekStream.seek, h1, h2]

end Util
